import Mathlib

/-!
Shallow embedding of the vectorized string functions of
`be/src/vec/functions/function_string.h` (doris-vectorized).

A string column is modelled logically as a list of rows, each row a list of
byte values (`Nat`, each `< 256` in intended use).  The physical encoding the
code reads — one contiguous `chars` buffer holding every row's payload followed
by one `'\0'` terminator, plus a cumulative `offsets` array with
`offsets[-1] = 0` — is reconstructed from the rows by `mkChars` / `offAt` /
`offPrev`, and every function reads its inputs through that encoding exactly as
the C++ does (pointer `raw_str = &chars[offsets[i-1]]`, length
`offsets[i] - offsets[i-1] - 1`).

Signed 32-bit quantities (`pos`, `len`, `repeat`) are modelled as `Int`;
`size_t` quantities as `Nat`.  Where the C++ compares an `int` with a `size_t`
the `int` is converted to unsigned, so a negative `int` compares greater than
any size; the embedding spells that case out.  An out-of-bounds read of the
`index` vector or of the `chars` buffer is undefined behaviour in the C++; the
embedding returns the distinguished result `RowRes.ub` there.
-/

namespace DorisStr

set_option autoImplicit false

/-- `get_utf8_byte_length` of `function_string.h`: decode the byte length of a
UTF-8 character from its lead byte. -/
def get_utf8_byte_length (byte : Nat) : Nat :=
  if byte ≥ 0xFC then 6
  else if byte ≥ 0xF8 then 5
  else if byte ≥ 0xF0 then 4
  else if byte ≥ 0xE0 then 3
  else if byte ≥ 0xC0 then 2
  else 1

/-- The packed `chars` buffer of a string column: each row's payload followed by
one terminator byte. -/
def mkChars (rows : List (List Nat)) : List Nat :=
  (rows.map (fun r => r ++ [0])).flatten

/-- `offsets[i]` of the packed encoding: cumulative end position of row `i`
(terminators included). -/
def offAt (rows : List (List Nat)) (i : Nat) : Nat :=
  ((rows.take (i + 1)).map (fun r => r.length + 1)).sum

/-- `offsets[i-1]` of the packed encoding (`offsets[-1] = 0` for `i = 0`,
as guaranteed by the padded array). -/
def offPrev (rows : List (List Nat)) (i : Nat) : Nat :=
  ((rows.take i).map (fun r => r.length + 1)).sum

/-- Read row `i` back out of the packed encoding, the way the C++ reads it:
`size = offsets[i] - offsets[i-1] - 1` bytes starting at `&chars[offsets[i-1]]`. -/
def readRow (rows : List (List Nat)) (i : Nat) : List Nat :=
  ((mkChars rows).drop (offPrev rows i)).take (offAt rows i - offPrev rows i - 1)

/-- Result of one row of a string function: `ub` models an undefined
out-of-bounds access; `null` models `StringOP::push_null_string` (null bit set,
empty payload written); `val bs` models `StringOP::push_value_string` with
payload `bs` (`push_empty_string` is `val []`). -/
inductive RowRes : Type
  | ub : RowRes
  | null : RowRes
  | val : List Nat → RowRes
deriving DecidableEq, Repr

/-- The output null bit of a row: the bit merged from the nullable inputs,
OR-ed with the bit `push_null_string` sets. -/
def rowNullBit (incoming : Bool) : RowRes → Bool
  | RowRes.null => true
  | _ => incoming

/-- `VectorizedUtils::update_null_map`: element-wise OR of a source null map
into the accumulated one. -/
def update_null_map (dst src : List Bool) : List Bool :=
  List.zipWith or dst src

/-! ### FunctionSubstring -/

/-- The character-indexing loop of `FunctionSubstring::vector`:

    for (size_t j = 0, char_size = 0; j < str_size; j += char_size) \x7b
        char_size = get_utf8_byte_length((unsigned)(raw_str)[i]);
        index.push_back(j);
        if (start[i] > 0 && index.size() > start[i] + len[i]) break;
    \x7d

Note that the lead byte is read at `raw_str[i]` — `i` is the *batch row
index*, not the within-row offset `j` — so `readPos = offsets[i-1] + i` is
fixed for the whole loop.  A read outside the `chars` buffer is undefined
(`none`).  The loop runs at most `str_size` iterations since
`char_size ≥ 1`; `fuel` is initialised accordingly. -/
def substr_scan (chars : List Nat) (readPos str_size : Nat) (start len : Int) :
    Nat → List Nat → Nat → Option (List Nat)
  | j, index, 0 => if j < str_size then none else some index
  | j, index, fuel + 1 =>
    if j < str_size then
      match chars[readPos]? with
      | none => none
      | some b =>
        let char_size := get_utf8_byte_length b
        let index' := index ++ [j]
        if start > 0 ∧ (index'.length : Int) > start + len then some index'
        else substr_scan chars readPos str_size start len (j + char_size) index' fuel
    else some index

/-- One row of `FunctionSubstring::vector`.  `off_prev = offsets[i-1]`,
`off_cur = offsets[i]`, `i` the batch row index, `start`/`len` the row's
`Int32` position arguments.

The comparisons `fixed_pos > index.size()` and the later array accesses follow
the C++ exactly: `fixed_pos` is an `int` compared against a `size_t`, so a
negative `fixed_pos` converts to a huge unsigned value and takes the NULL
branch, while `fixed_pos = 0` reaches `index[fixed_pos - 1] = index[-1]`,
an out-of-bounds (undefined) read. -/
def substr_row (chars : List Nat) (off_prev off_cur i : Nat) (start len : Int) :
    RowRes :=
  let str_size : Int := (off_cur : Int) - (off_prev : Int) - 1
  if start > str_size then RowRes.null
  else if len ≤ 0 ∨ str_size = 0 ∨ start = 0 then RowRes.val []
  else
    match substr_scan chars (off_prev + i) str_size.toNat start len 0 []
        (str_size.toNat + 1) with
    | none => RowRes.ub
    | some index =>
      let fixed_pos : Int :=
        if start < 0 then (index.length : Int) + start + 1 else start
      if fixed_pos < 0 ∨ fixed_pos > (index.length : Int) then RowRes.null
      else if fixed_pos = 0 then RowRes.ub
      else
        let byte_pos : Nat := index.getD (fixed_pos - 1).toNat 0
        let fixed_len : Int :=
          if fixed_pos + len ≤ (index.length : Int) then
            (index.getD (fixed_pos + len - 1).toNat 0 : Int) - (byte_pos : Int)
          else str_size - (byte_pos : Int)
        if (byte_pos : Int) ≤ str_size ∧ 0 < fixed_len then
          RowRes.val ((chars.drop (off_prev + byte_pos)).take fixed_len.toNat)
        else RowRes.val []

/-- `FunctionSubstring::vector` over a whole batch: the per-row results, with
the inputs supplied through the packed `chars`/`offsets` encoding built from
`rows`. -/
def substring_vector (rows : List (List Nat)) (start len : List Int) :
    List RowRes :=
  (List.range rows.length).map fun i =>
    substr_row (mkChars rows) (offPrev rows i) (offAt rows i) i
      (start.getD i 0) (len.getD i 0)

/-! ### FunctionLeft / FunctionRight -/

/-- `FunctionLeft::executeImpl`: insert a constant-1 `Int32` column (expanded
to full) and delegate to `FunctionSubstring::substring_execute` with arguments
`(str, 1, n)`. -/
def left_execute (rows : List (List Nat)) (n : List Int) : List RowRes :=
  substring_vector rows (List.replicate rows.length 1) n

/-- `FunctionRight::executeImpl`: build `strlen_data[i] =
str_offset[i] - str_offset[i-1] - 1` and `index_data[i] =
max(-pos_data[i], -strlen_data[i])`, then delegate to
`FunctionSubstring::substring_execute` with arguments
`(str, index_data, strlen_data)`. -/
def right_execute (rows : List (List Nat)) (n : List Int) : List RowRes :=
  let strlen_data : List Int :=
    (List.range rows.length).map fun i =>
      (offAt rows i : Int) - (offPrev rows i : Int) - 1
  let index_data : List Int :=
    (List.range rows.length).map fun i =>
      max (-(n.getD i 0)) (-(strlen_data.getD i 0))
  substring_vector rows index_data strlen_data

/-- UTF-8 character count of a byte string, advancing by the decoded lead-byte
length of each character (used only to state the spec-level formula for
`right`).  Structured with a fuel argument (initialised to the byte length,
which suffices since every character consumes at least one byte) so that it
evaluates by reduction. -/
def utf8_char_count_go : Nat → List Nat → Nat
  | 0, _ => 0
  | _, [] => 0
  | fuel + 1, b :: rest =>
    1 + utf8_char_count_go fuel (rest.drop (get_utf8_byte_length b - 1))

/-- UTF-8 character count of a byte string. -/
def utf8_char_count (s : List Nat) : Nat :=
  utf8_char_count_go s.length s

/-- Modelled from the spec: the claim's formula for `right`,
`right(s, n) = substring(s, max(-n, -char_count(s)), char_count(s))`, with
`char_count` the UTF-8 character count.  Stated for comparison with
`right_execute`, which the source builds from the *byte* length instead. -/
def right_spec_charcount (rows : List (List Nat)) (n : List Int) :
    List RowRes :=
  let charlen : List Int :=
    (List.range rows.length).map fun i => (utf8_char_count (rows.getD i []) : Int)
  let pos : List Int :=
    (List.range rows.length).map fun i =>
      max (-(n.getD i 0)) (-(charlen.getD i 0))
  substring_vector rows pos charlen

/-! ### FunctionNullOrEmpty -/

/-- A function input column: the (nested) rows, and `some` null map when the
argument is wrapped in a `ColumnNullable`. -/
structure StrCol : Type where
  rows : List (List Nat)
  nulls : Option (List Bool)
deriving DecidableEq, Repr

/-- The null bit of row `i` of an input column (`false` for a non-nullable
column, matching the all-zero `const_null_map`). -/
def colNullBit (c : StrCol) (i : Nat) : Bool :=
  match c.nulls with
  | some m => m.getD i false
  | none => false

/-- `FunctionNullOrEmpty::executeImpl`: the result map starts from the input's
null map (if nullable) and each row then ORs in `size == 0` with
`size = offsets[i] - offsets[i-1] - 1` read from the nested column.  The output
column is the plain `UInt8` map itself — not wrapped nullable. -/
def null_or_empty_execute (c : StrCol) : List Bool :=
  (List.range c.rows.length).map fun i =>
    colNullBit c i ||
      ((offAt c.rows i : Int) - (offPrev c.rows i : Int) - 1 == 0)

/-! ### FunctionStringConcat -/

/-- The merged output null map of `concat`: zero-initialised, then
`update_null_map` with each nullable argument's map. -/
def concat_null_map (args : List StrCol) (cnt : Nat) : List Bool :=
  args.foldl
    (fun acc a =>
      match a.nulls with
      | some m => update_null_map acc m
      | none => acc)
    (List.replicate cnt false)

/-- One row of the `concat` copy loop: for each argument, copy
`offsets[i] - offsets[i-1] - 1` bytes from `&chars[offsets[i-1]]`, in argument
order. -/
def concat_row (args : List StrCol) (i : Nat) : List Nat :=
  (args.map fun a => readRow a.rows i).flatten

/-- `FunctionStringConcat::executeImpl` for two or more arguments: the payload
rows and the merged null map of the resulting nullable column. -/
def concat_execute_multi (args : List StrCol) (cnt : Nat) :
    List (List Nat) × List Bool :=
  ((List.range cnt).map fun i => concat_row args i, concat_null_map args cnt)

/-- `FunctionStringConcat::executeImpl` for a single argument: the input
column is passed through, wrapped nullable (an all-zero null map) when it is
not already nullable. -/
def concat_execute_one (c : StrCol) (cnt : Nat) : List (List Nat) × List Bool :=
  match c.nulls with
  | some m => (c.rows, m)
  | none => (c.rows, List.replicate cnt false)

/-! ### FunctionStringConcatWs -/

/-- One row of `concat_ws`: if the separator's null bit is set, an empty
payload is pushed (and the output null map, built from `null_list[0]` alone,
nulls the row); otherwise the non-null remaining arguments' payloads are
joined with the separator (`fmt::join(views, seq)`). -/
def concat_ws_row (args : List StrCol) (i : Nat) : List Nat :=
  match args with
  | [] => []
  | sep :: rest =>
    if colNullBit sep i then []
    else
      List.intercalate (readRow sep.rows i)
        (rest.filterMap fun a =>
          if colNullBit a i then none else some (readRow a.rows i))

/-- `FunctionStringConcatWs::executeImpl`: payload rows plus the output null
map, which is `update_null_map` of the zero map with the separator's null map
only.

The argument-gathering loop stores each column pointer into the fixed array
`ColumnPtr argument_columns[3]`, whose valid indices are 0..2, yet runs for
every `i < argument_size`; with more than three argument columns the store
`argument_columns[i]` for `i ≥ 3` writes past the end of the array —
undefined behaviour, modelled as `none` — before any row is processed. -/
def concat_ws_execute (args : List StrCol) (cnt : Nat) :
    Option (List (List Nat) × List Bool) :=
  if 3 < args.length then none
  else
    some ((List.range cnt).map fun i => concat_ws_row args i,
      (List.range cnt).map fun i =>
        match args with
        | [] => false
        | sep :: _ => colNullBit sep i)

/-! ### FunctionStringRepeat -/

/-- The inner loop of `FunctionStringRepeat::vector_vector`: append the row's
byte span `repeat` times (`for (int i = 0; i < repeat; ++i)` — zero iterations
when `repeat ≤ 0`).  The only check on the product `size * repeat` is a
`DCHECK` (debug-only assertion); no error path exists here. -/
def repeat_row (s : List Nat) (rep : Int) : List Nat :=
  (List.replicate rep.toNat s).flatten

/-- `FunctionStringRepeat::vector_vector` over a batch, rows read through the
packed encoding. -/
def repeat_vector (rows : List (List Nat)) (repeats : List Int) :
    List (List Nat) :=
  (List.range rows.length).map fun i =>
    repeat_row (readRow rows i) (repeats.getD i 0)

/-! ### Lemmas about the packed encoding -/

lemma one_le_utf8_len (b : Nat) : 1 ≤ get_utf8_byte_length b := by
  unfold get_utf8_byte_length
  split_ifs <;> omega

lemma offAt_eq (rows : List (List Nat)) (i : Nat) (hi : i < rows.length) :
    offAt rows i = offPrev rows i + ((rows.getD i []).length + 1) := by
  unfold offAt offPrev
  rw [List.map_take, List.map_take,
    List.sum_take_succ _ i (by simpa using hi)]
  simp [List.getD_eq_getElem?_getD, List.getElem?_eq_getElem hi]

lemma mkChars_drop (rows : List (List Nat)) :
    ∀ i, i < rows.length →
      (mkChars rows).drop (offPrev rows i) =
        (rows.getD i [] ++ [0]) ++ mkChars (rows.drop (i + 1)) := by
  induction rows with
  | nil => intro i hi; exact absurd hi (by simp)
  | cons r rs ih =>
    intro i hi
    cases i with
    | zero => simp [mkChars, offPrev]
    | succ j =>
      have h1 : offPrev (r :: rs) (j + 1) = (r ++ [0]).length + offPrev rs j := by
        simp [offPrev, List.take_succ_cons]
      have h2 : mkChars (r :: rs) = (r ++ [0]) ++ mkChars rs := by
        simp [mkChars]
      rw [h1, h2, List.drop_append]
      simpa [List.getD_cons_succ] using ih j (Nat.lt_of_succ_lt_succ hi)

lemma mkChars_slice (rows : List (List Nat)) (i : Nat) (hi : i < rows.length) :
    ((mkChars rows).drop (offPrev rows i)).take (rows.getD i []).length =
      rows.getD i [] := by
  rw [mkChars_drop rows i hi, List.append_assoc, List.take_left]

lemma readRow_eq (rows : List (List Nat)) (i : Nat) (hi : i < rows.length) :
    readRow rows i = rows.getD i [] := by
  unfold readRow
  rw [offAt_eq rows i hi]
  have h : offPrev rows i + ((rows.getD i []).length + 1) - offPrev rows i - 1 =
      (rows.getD i []).length := by omega
  rw [h]
  exact mkChars_slice rows i hi

lemma substr_scan_some (chars : List Nat) (readPos strSize : Nat)
    (start len : Int) (b : Nat) (hb : chars[readPos]? = some b) :
    ∀ fuel j acc, strSize ≤ j + fuel →
      (start ≤ 0 ∨
        (acc.length : Int) + ((strSize : Int) - (j : Int)) ≤ start + len) →
      ∃ tl, substr_scan chars readPos strSize start len j acc fuel =
          some (acc ++ tl) ∧
        tl.length ≤ strSize - j ∧ (j < strSize → tl.head? = some j) := by
  intro fuel
  induction fuel with
  | zero =>
    intro j acc hfuel _
    have hj : ¬ j < strSize := by omega
    refine ⟨[], ?_, by simp, fun h => absurd h hj⟩
    simp [substr_scan, hj]
  | succ fuel ih =>
    intro j acc hfuel hinv
    by_cases hj : j < strSize
    · have hcs : 1 ≤ get_utf8_byte_length b := one_le_utf8_len b
      have hlenapp : ((acc ++ [j]).length : Int) = (acc.length : Int) + 1 := by
        simp
      have hbreak : ¬ (start > 0 ∧
          ((acc ++ [j]).length : Int) > start + len) := by
        rintro ⟨h1, h2⟩
        rcases hinv with h0 | hle
        · omega
        · omega
      obtain ⟨tl', htl', hlen', _⟩ :=
        ih (j + get_utf8_byte_length b) (acc ++ [j]) (by omega)
          (by
            rcases hinv with h0 | hle
            · exact Or.inl h0
            · refine Or.inr ?_
              push_cast
              omega)
      refine ⟨j :: tl', ?_, ?_, fun _ => rfl⟩
      · simp only [substr_scan, if_pos hj, hb]
        simp only [if_neg hbreak]
        rw [htl']
        simp
      · simp only [List.length_cons]
        omega
    · refine ⟨[], ?_, by simp, fun h => absurd h hj⟩
      simp [substr_scan, hj]

/-- Evaluating `substr_row` at `start = 1`, `len = byte length`, on a nonempty
row whose (bugged) lead-byte read `raw_str[i]` stays inside the `chars`
buffer: the whole row comes back, non-null.  This holds whatever byte that
read returns, because with `len` equal to the byte length neither the early
break nor the end-index truncation can fire. -/
lemma substr_row_full (rows : List (List Nat)) (i : Nat) (hi : i < rows.length)
    (hne : rows.getD i [] ≠ [])
    (hread : offPrev rows i + i < (mkChars rows).length) :
    substr_row (mkChars rows) (offPrev rows i) (offAt rows i) i 1
      ((rows.getD i []).length : Int) = RowRes.val (rows.getD i []) := by
  have hL : 0 < (rows.getD i []).length := List.length_pos.mpr hne
  have hss : ((offAt rows i : Nat) : Int) - ((offPrev rows i : Nat) : Int) - 1
      = ((rows.getD i []).length : Int) := by
    rw [offAt_eq rows i hi]; push_cast; ring
  obtain ⟨tl, htl, hlen, hhead⟩ :=
    substr_scan_some (mkChars rows) (offPrev rows i + i)
      (rows.getD i []).length 1 ((rows.getD i []).length : Int)
      ((mkChars rows)[offPrev rows i + i]) (List.getElem?_eq_getElem hread)
      ((rows.getD i []).length + 1) 0 []
      (by omega) (Or.inr (by simp only [List.length_nil]; push_cast; omega))
  rw [List.nil_append] at htl
  have hhead' := hhead hL
  cases tl with
  | nil => simp at hhead'
  | cons a t =>
    have ha : a = 0 := by simpa using hhead'
    subst ha
    have hlen' : t.length + 1 ≤ (rows.getD i []).length := by
      simpa using hlen
    simp only [substr_row, hss, Int.toNat_natCast]
    rw [htl]
    simp only [if_neg (show ¬ (1 : Int) > ((rows.getD i []).length : Int) by
      omega)]
    rw [if_neg (show ¬ (((rows.getD i []).length : Int) ≤ 0 ∨
        ((rows.getD i []).length : Int) = 0 ∨ (1 : Int) = 0) by
      rintro (h | h | h) <;> omega)]
    simp only [if_neg (show ¬ (1 : Int) < 0 by omega)]
    rw [if_neg (show ¬ ((1 : Int) < 0 ∨
        (1 : Int) > (((0 :: t : List Nat).length : Nat) : Int)) by
      simp only [List.length_cons]
      rintro (h | h) <;> omega)]
    rw [if_neg (show ¬ (1 : Int) = 0 by omega)]
    simp only [show ((1 : Int) - 1).toNat = 0 from by norm_num,
      List.getD_cons_zero]
    rw [if_neg (show ¬ (1 : Int) + ((rows.getD i []).length : Int) ≤
        (((0 :: t : List Nat).length : Nat) : Int) by
      simp only [List.length_cons]; push_cast; omega)]
    rw [if_pos (show ((0 : Nat) : Int) ≤ ((rows.getD i []).length : Int) ∧
        0 < ((rows.getD i []).length : Int) - ((0 : Nat) : Int) by
      constructor <;> push_cast <;> omega)]
    have hlen2 : (((rows.getD i []).length : Int) - ((0 : Nat) : Int)).toNat =
        (rows.getD i []).length := by push_cast; omega
    rw [hlen2]
    rw [Nat.add_zero]
    exact congrArg RowRes.val (mkChars_slice rows i hi)

lemma strSize_eq (rows : List (List Nat)) (i : Nat) (hi : i < rows.length) :
    ((offAt rows i : Nat) : Int) - ((offPrev rows i : Nat) : Int) - 1 =
      ((rows.getD i []).length : Int) := by
  rw [offAt_eq rows i hi]; push_cast; ring

lemma getD_range_map {α : Type} (f : Nat → α) (d : α) (cnt i : Nat)
    (hi : i < cnt) : ((List.range cnt).map f).getD i d = f i := by
  simp [List.getD_eq_getElem?_getD, List.getElem?_map, List.getElem?_range hi]

lemma getElem?_range_map {α : Type} (f : Nat → α) (cnt i : Nat)
    (hi : i < cnt) : ((List.range cnt).map f)[i]? = some (f i) := by
  simp [List.getElem?_map, List.getElem?_range hi]

lemma substring_vector_getElem? (rows : List (List Nat)) (starts lens : List Int)
    (i : Nat) (hi : i < rows.length) :
    (substring_vector rows starts lens)[i]? =
      some (substr_row (mkChars rows) (offPrev rows i) (offAt rows i) i
        (starts.getD i 0) (lens.getD i 0)) := by
  unfold substring_vector
  exact getElem?_range_map _ rows.length i hi

lemma concat_null_map_fold (i cnt : Nat) (hi : i < cnt) :
    ∀ (args : List StrCol) (acc : List Bool), acc.length = cnt →
      (∀ a ∈ args, ∀ m, a.nulls = some m → m.length = cnt) →
      (args.foldl
          (fun acc a =>
            match a.nulls with
            | some m => update_null_map acc m
            | none => acc)
          acc)[i]? =
        some (acc.getD i false || args.any fun a => colNullBit a i) := by
  intro args
  induction args with
  | nil =>
    intro acc hlen _
    have hi' : i < acc.length := by omega
    simp [List.getElem?_eq_getElem hi', List.getD_eq_getElem _ _ hi']
  | cons a args ih =>
    intro acc hlen hnulls
    cases hn : a.nulls with
    | none =>
      have := ih acc hlen (fun b hb => hnulls b (List.mem_cons_of_mem a hb))
      simp only [List.foldl_cons, hn]
      rw [this]
      simp [colNullBit, hn]
    | some m =>
      have hm : m.length = cnt := hnulls a (List.mem_cons_self a args) m hn
      have hzlen : (update_null_map acc m).length = cnt := by
        simp [update_null_map, hlen, hm]
      have := ih (update_null_map acc m) hzlen
        (fun b hb => hnulls b (List.mem_cons_of_mem a hb))
      simp only [List.foldl_cons, hn]
      rw [this]
      have hi1 : i < acc.length := by omega
      have hi2 : i < m.length := by omega
      have hgz : (update_null_map acc m).getD i false = (acc.getD i false ||
          m.getD i false) := by
        have hi3 : i < (update_null_map acc m).length := by omega
        rw [List.getD_eq_getElem _ _ hi3, List.getD_eq_getElem _ _ hi1,
          List.getD_eq_getElem _ _ hi2]
        simp [update_null_map, List.getElem_zipWith]
      rw [hgz]
      have hcb : colNullBit a i = m.getD i false := by simp [colNullBit, hn]
      simp [hcb, Bool.or_assoc]

/-! ### Claim theorems -/

/-- C1.  The claim says the resolver decodes the UTF-8 lead-byte length of
each character's first byte *within the row*, so that on a batch whose rows
are each three 3-byte characters (0xE4 0xB8 0xAD repeated), `substring(s,2,1)`
returns the second character's full 3-byte span on every row.  The code
instead decodes `raw_str[i]` with `i` the batch row index: row 0 happens to
come out right, but row 1 decodes a continuation byte (0xB8, length 1) and
returns the single byte 0xB8 — contradicting the claimed (and clearly
intended) behaviour. -/
theorem substring_rowindex_bug_eval :
    substring_vector
        [[228, 184, 173, 228, 184, 173, 228, 184, 173],
         [228, 184, 173, 228, 184, 173, 228, 184, 173]]
        [2, 2] [1, 1] =
      [RowRes.val [228, 184, 173], RowRes.val [184]] ∧
    RowRes.val [184] ≠ RowRes.val [228, 184, 173] := by
  constructor
  · decide
  · decide

/-- C4 (counterexample).  `substring("", 1, 0)` is NULL, not `""`: for the
empty string the byte-length pre-check `start > str_size` fires (`1 > 0`),
so the claim "substring(s, 1, length(s)) returns s itself, non-null, for
every s" fails at `s = ""`. -/
theorem substring_full_length_empty_cex :
    substring_vector [[]] [1] [0] = [RowRes.null] ∧
    RowRes.null ≠ RowRes.val [] := by
  constructor
  · decide
  · decide

/-- C4 (amended).  For every row whose string `s` is nonempty — and whose
(bugged) lead-byte read `raw_str[i]` lands inside the `chars` buffer, which
the padded array guarantees in practice — `substring(s, 1, byte_length(s))`
returns `s` itself, non-null.  For the empty string the result is NULL
instead (see the counterexample). -/
theorem substring_full_length_nonempty (rows : List (List Nat))
    (starts lens : List Int) (i : Nat) (hi : i < rows.length)
    (hne : rows.getD i [] ≠ [])
    (hread : offPrev rows i + i < (mkChars rows).length)
    (hs : starts.getD i 0 = 1)
    (hl : lens.getD i 0 = ((rows.getD i []).length : Int)) :
    (substring_vector rows starts lens)[i]? =
      some (RowRes.val (rows.getD i [])) ∧
    rowNullBit false (RowRes.val (rows.getD i [])) = false := by
  rw [substring_vector_getElem? rows starts lens i hi, hs, hl,
    substr_row_full rows i hi hne hread]
  exact ⟨rfl, rfl⟩

/-- Witness for the amended C4 at `rows = [[97, 98]]`, `pos = 1`,
`len = 2`. -/
theorem substring_full_length_nonempty_witness :
    (substring_vector [[97, 98]] [1] [2])[0]? =
      some (RowRes.val [97, 98]) ∧
    rowNullBit false (RowRes.val [97, 98]) = false := by
  have h := substring_full_length_nonempty [[97, 98]] [1] [2] 0
    (by decide) (by decide) (by decide) (by decide) (by decide)
  exact h

/-- C5.  Whenever the row's `pos` argument exceeds the row's byte length,
the resolver takes the `start[i] > str_size` branch: `push_null_string` runs,
setting the row's null bit and writing an empty payload. -/
theorem substring_pos_gt_bytelen_null (rows : List (List Nat))
    (starts lens : List Int) (i : Nat) (hi : i < rows.length)
    (h : ((rows.getD i []).length : Int) < starts.getD i 0) :
    (substring_vector rows starts lens)[i]? = some RowRes.null ∧
    rowNullBit false RowRes.null = true := by
  rw [substring_vector_getElem? rows starts lens i hi]
  simp only [substr_row, strSize_eq rows i hi]
  rw [if_pos (show starts.getD i 0 > ((rows.getD i []).length : Int) from h)]
  exact ⟨rfl, rfl⟩

/-- Witness for C5 at `rows = [[97]]`, `pos = 2`, `len = 1`. -/
theorem substring_pos_gt_bytelen_null_witness :
    (substring_vector [[97]] [2] [1])[0]? = some RowRes.null ∧
    rowNullBit false RowRes.null = true := by
  have h := substring_pos_gt_bytelen_null [[97]] [2] [1] 0
    (by decide) (by decide)
  exact h

/-- C6.  With `pos` within the byte-length bound, if `len ≤ 0`, or the row's
string is empty, or `pos = 0`, the resolver pushes the empty string
(`push_empty_string`), leaving the row's null bit untouched. -/
theorem substring_empty_result (rows : List (List Nat))
    (starts lens : List Int) (i : Nat) (hi : i < rows.length)
    (hpos : starts.getD i 0 ≤ ((rows.getD i []).length : Int))
    (hc : lens.getD i 0 ≤ 0 ∨ (rows.getD i []).length = 0 ∨
      starts.getD i 0 = 0) :
    (substring_vector rows starts lens)[i]? = some (RowRes.val []) ∧
    rowNullBit false (RowRes.val []) = false := by
  rw [substring_vector_getElem? rows starts lens i hi]
  simp only [substr_row, strSize_eq rows i hi]
  rw [if_neg (show ¬ starts.getD i 0 > ((rows.getD i []).length : Int) by
    omega)]
  rw [if_pos (show lens.getD i 0 ≤ 0 ∨
      ((rows.getD i []).length : Int) = 0 ∨ starts.getD i 0 = 0 by
    rcases hc with h | h | h
    · exact Or.inl h
    · exact Or.inr (Or.inl (by exact_mod_cast h))
    · exact Or.inr (Or.inr h))]
  exact ⟨rfl, rfl⟩

/-- Witness for C6 at `rows = [[97]]`, `pos = 1`, `len = -3`. -/
theorem substring_empty_result_witness :
    (substring_vector [[97]] [1] [-3])[0]? = some (RowRes.val []) ∧
    rowNullBit false (RowRes.val []) = false := by
  have h := substring_empty_result [[97]] [1] [-3] 0
    (by decide) (by decide) (by decide)
  exact h

/-- C2 (counterexample).  `right("ÀÀ", 4)` (two 2-byte characters,
bytes 0xC3 0x80 0xC3 0x80) comes out NULL from the code, because the code
rewrites the position with the *byte* length (`max(-4, -4) = -4`, giving
`fixed_pos = 2 - 4 + 1 < 0`), while the claim's formula
`substring(s, max(-n, -char_count(s)), char_count(s))` yields the whole
string non-null.  So `right(s, n)` does not equal the char-count formula. -/
theorem right_charcount_formula_cex :
    right_execute [[195, 128, 195, 128]] [4] = [RowRes.null] ∧
    right_spec_charcount [[195, 128, 195, 128]] [4] =
      [RowRes.val [195, 128, 195, 128]] ∧
    RowRes.null ≠ RowRes.val [195, 128, 195, 128] := by
  refine ⟨?_, ?_, ?_⟩
  · decide
  · decide
  · decide

/-- C2 (amended).  `left` and `right` are implemented by constructing
rewritten argument columns and delegating to the same substring routine:
per row, `left(s, n) = substring(s, 1, n)`, and
`right(s, n) = substring(s, max(-n, -byte_length(s)), byte_length(s))` —
the length the code rewrites with is the *byte* length, not the character
count. -/
theorem left_right_delegate (rows : List (List Nat)) (n : List Int) (i : Nat)
    (hi : i < rows.length) :
    (left_execute rows n)[i]? =
      some (substr_row (mkChars rows) (offPrev rows i) (offAt rows i) i 1
        (n.getD i 0)) ∧
    (right_execute rows n)[i]? =
      some (substr_row (mkChars rows) (offPrev rows i) (offAt rows i) i
        (max (-(n.getD i 0)) (-((rows.getD i []).length : Int)))
        ((rows.getD i []).length : Int)) := by
  constructor
  · unfold left_execute
    rw [substring_vector_getElem? rows _ n i hi]
    congr 2
    simp [List.getD_eq_getElem?_getD, List.getElem?_replicate, hi]
  · unfold right_execute
    rw [substring_vector_getElem? rows _ _ i hi]
    rw [getD_range_map _ _ rows.length i hi,
      getD_range_map _ _ rows.length i hi, strSize_eq rows i hi]

/-- Witness for the amended C2 at `rows = [[97, 98]]`, `n = [1]`. -/
theorem left_right_delegate_witness :
    (left_execute [[97, 98]] [1])[0]? =
      some (substr_row (mkChars [[97, 98]]) (offPrev [[97, 98]] 0)
        (offAt [[97, 98]] 0) 0 1 1) ∧
    (right_execute [[97, 98]] [1])[0]? =
      some (substr_row (mkChars [[97, 98]]) (offPrev [[97, 98]] 0)
        (offAt [[97, 98]] 0) 0 (max (-(1 : Int)) (-(2 : Int))) 2) := by
  have h := left_right_delegate [[97, 98]] [1] 0 (by decide)
  exact h

/-- C3.  The claim says a `repeat` row whose output size `size * n` overflows
a 32-bit count is rejected with checked arithmetic before allocation.  The
only guard in `vector_vector` is `DCHECK_LE(int64(size) * repeat, INT32_MAX)`
— a debug-only assertion, not checked arithmetic — so on the input
`s = 'a' * 2^20, n = 2^12` (product `2^32 > INT32_MAX`, violating the
assertion, as the second conjunct records) the release code allocates and
writes the full 2^32-byte row instead of failing. -/
theorem repeat_overflow_not_rejected :
    ((repeat_vector [List.replicate 1048576 97] [4096])[0]?).map
        List.length = some 4294967296 ∧
    ¬ ((1048576 : Int) * 4096 ≤ 2147483647) := by
  constructor
  · have h0 : (0 : Nat) < ([List.replicate 1048576 97] :
        List (List Nat)).length := by decide
    unfold repeat_vector
    rw [getElem?_range_map _ _ 0 h0, readRow_eq _ 0 h0]
    have hrr : repeat_row (([List.replicate 1048576 97] :
          List (List Nat)).getD 0 []) (([4096] : List Int).getD 0 0) =
        repeat_row (List.replicate 1048576 97) 4096 := rfl
    have hlen : (repeat_row (List.replicate 1048576 97) 4096).length =
        4294967296 := by
      unfold repeat_row
      rw [List.length_flatten, List.map_replicate, List.sum_replicate,
        List.length_replicate, smul_eq_mul]
      rw [show Int.toNat 4096 = 4096 from rfl]
    rw [hrr, Option.map_some', hlen]
  · decide

/-- C10.  A `repeat` row with `n ≤ 0` (any negative `n` included) runs the
copy loop `for (int i = 0; i < repeat; ++i)` zero times, so
`push_value_string` records an empty payload (plus terminator) for the
row. -/
theorem repeat_nonpositive_empty (rows : List (List Nat)) (reps : List Int)
    (i : Nat) (hi : i < rows.length) (hn : reps.getD i 0 ≤ 0) :
    (repeat_vector rows reps)[i]? = some [] := by
  unfold repeat_vector
  rw [getElem?_range_map _ _ i hi]
  unfold repeat_row
  rw [Int.toNat_of_nonpos hn]
  simp

/-- Witness for C10 at `rows = [[97]]`, `n = -1`. -/
theorem repeat_nonpositive_empty_witness :
    (repeat_vector [[97]] [-1])[0]? = some [] := by
  have h := repeat_nonpositive_empty [[97]] [-1] 0 (by decide) (by decide)
  exact h

/-- C7.  For `concat` with two or more arguments, every output row is the
byte-wise concatenation of that row's input payloads (the code copies each
argument's row span in order), and the output null map is the OR across the
nullable inputs' maps, so a row is null iff at least one input is null
there.  For a single argument, `executeImpl` returns the input column
itself, wrapped nullable when it is not already. -/
theorem concat_rows_and_nulls (args : List StrCol) (cnt i : Nat)
    (hi : i < cnt) (hrows : ∀ a ∈ args, a.rows.length = cnt)
    (hnulls : ∀ a ∈ args, ∀ m, a.nulls = some m → m.length = cnt) :
    ((concat_execute_multi args cnt).1)[i]? =
      some ((args.map fun a => a.rows.getD i []).flatten) ∧
    ((concat_execute_multi args cnt).2)[i]? =
      some (args.any fun a => colNullBit a i) ∧
    ∀ c : StrCol, concat_execute_one c cnt =
      (c.rows, c.nulls.getD (List.replicate cnt false)) := by
  refine ⟨?_, ?_, ?_⟩
  · simp only [concat_execute_multi]
    rw [getElem?_range_map _ _ i hi]
    congr 1
    unfold concat_row
    congr 1
    apply List.map_congr_left
    intro a ha
    exact readRow_eq a.rows i (by rw [hrows a ha]; exact hi)
  · simp only [concat_execute_multi]
    unfold concat_null_map
    rw [concat_null_map_fold i cnt hi args _ (by simp) hnulls]
    have hrep : (List.replicate cnt false).getD i false = false := by
      simp [List.getD_eq_getElem?_getD, List.getElem?_replicate, hi]
    rw [hrep, Bool.false_or]
  · intro c
    cases hn : c.nulls <;> simp [concat_execute_one, hn]

/-- Witness for C7 at two one-row arguments (`"ab"` non-nullable, `"c"`
nullable and null at row 0), plus the single-argument passthrough. -/
theorem concat_rows_and_nulls_witness :
    ((concat_execute_multi [⟨[[97, 98]], none⟩, ⟨[[99]], some [true]⟩] 1).1)[0]? =
      some (([⟨[[97, 98]], none⟩, ⟨[[99]], some [true]⟩] :
        List StrCol).map fun a => a.rows.getD 0 []).flatten ∧
    ((concat_execute_multi [⟨[[97, 98]], none⟩, ⟨[[99]], some [true]⟩] 1).2)[0]? =
      some (([⟨[[97, 98]], none⟩, ⟨[[99]], some [true]⟩] :
        List StrCol).any fun a => colNullBit a 0) ∧
    ∀ c : StrCol, concat_execute_one c 1 =
      (c.rows, c.nulls.getD (List.replicate 1 false)) := by
  have h := concat_rows_and_nulls [⟨[[97, 98]], none⟩, ⟨[[99]], some [true]⟩]
    1 0 (by decide)
    (by
      intro a ha
      simp only [List.mem_cons, List.not_mem_nil, or_false] at ha
      rcases ha with rfl | rfl <;> rfl)
    (by
      intro a ha m hm
      simp only [List.mem_cons, List.not_mem_nil, or_false] at ha
      rcases ha with rfl | rfl
      · cases hm
      · cases hm; rfl)
  exact h

/-- C8.  The claimed policy — the row is null iff the separator is null,
and a null remaining argument is skipped, the others joined in order with
the separator — is the function's evident contract (`isVariadic()`,
`DCHECK_GE(arguments.size(), 2)` with no upper bound, and the spec's own
example `concat_ws(",", "a", NULL, "b")`), and within bounds the per-row
loop implements exactly it.  But `executeImpl` gathers the inputs into a
fixed `ColumnPtr argument_columns[3]`, so with four or more argument
columns — the spec's example included — the store `argument_columns[3]`
writes out of bounds and the code is undefined instead of producing the
claimed row (first conjunct).  The second and third conjuncts evaluate the
in-bounds cases: `concat_ws(",", NULL, "b") = "b"` non-null (null argument
skipped, three columns), and `concat_ws(NULL, "a")` NULL (two columns). -/
theorem concat_ws_fixed_array_ub :
    concat_ws_execute
        [⟨[[44]], none⟩, ⟨[[97]], none⟩, ⟨[[120]], some [true]⟩,
         ⟨[[98]], none⟩] 1 = none ∧
    concat_ws_execute
        [⟨[[44]], none⟩, ⟨[[120]], some [true]⟩, ⟨[[98]], none⟩] 1 =
      some ([[98]], [false]) ∧
    concat_ws_execute [⟨[[44]], some [true]⟩, ⟨[[97]], none⟩] 1 =
      some ([[]], [true]) := by
  refine ⟨?_, ?_, ?_⟩
  · decide
  · decide
  · decide

/-- C9.  `null_or_empty` returns, for every row, `true` iff the row is null
or the row's string has zero length; a null input row contributes `true`
through the merged map, and the output column is the plain `UInt8` column
(never wrapped nullable). -/
theorem null_or_empty_correct (c : StrCol) (i : Nat)
    (hi : i < c.rows.length) :
    (null_or_empty_execute c)[i]? =
      some (colNullBit c i || ((c.rows.getD i []).length == 0)) := by
  unfold null_or_empty_execute
  rw [getElem?_range_map _ _ i hi]
  have hz : ((((c.rows.getD i []).length : Nat) : Int) == 0) =
      ((c.rows.getD i []).length == 0) := by simp [beq_iff_eq]
  rw [strSize_eq c.rows i hi, hz]

/-- Witness for C9 on a three-row column: a non-empty row, an empty row, and
a null row. -/
theorem null_or_empty_correct_witness :
    (null_or_empty_execute ⟨[[97], [], [98]], some [false, false, true]⟩)[1]? =
      some (colNullBit ⟨[[97], [], [98]], some [false, false, true]⟩ 1 ||
        (((⟨[[97], [], [98]], some [false, false, true]⟩ :
          StrCol).rows.getD 1 []).length == 0)) := by
  have h := null_or_empty_correct
    ⟨[[97], [], [98]], some [false, false, true]⟩ 1 (by decide)
  exact h

end DorisStr
